import Mathlib

/-
Shallow embedding of the HPC false-sharing / memory-access benchmark
programs (six C files) and proofs about their numeric behaviour.

Each C program is embedded as pure Lean functions over `Nat`, with
unsigned-long (64-bit) arithmetic modelled by explicit `% 2 ^ 64`.
Per-thread loops become lists of visited indices; the per-thread
accumulators and the final aggregation become folds with wrapping
addition, exactly mirroring the source loops.  The OpenMP parallel
regions are deterministic here because every worker writes only its own
accumulator slot and the reduction is performed sequentially after the
barrier, as in the source.
-/

namespace HPCFS

/-- Modulus of C `unsigned long` arithmetic (64-bit). -/
def wordMod : Nat := 2 ^ 64

/-- Wrapping 64-bit addition, modelling `a + b` on `unsigned long`. -/
def addW (a b : Nat) : Nat := (a + b) % wordMod

/-- Running sum with unsigned-long wraparound, modelling a
`sum += x` loop over the values in the list. -/
def mSum (l : List Nat) : Nat := l.foldl addW 0

/-- Value stored at index `i` by `load_array` (`array[i] = i + 1`,
files array_sum_memory_access_28.c, matrix_init_access_variation_29.c,
array_sum_false_sharing_sim_14.c, array_sum_performance_variation_10.c). -/
def load_array (i : Nat) : Nat := (i + 1) % wordMod

/-- Chunk size `size / num_threads` computed by each worker
(e.g. array_sum_memory_access_28.c line 57). -/
def chunk_size (N T : Nat) : Nat := N / T

/-- Start of worker `t`'s range: `start = tid * chunk_size`
(array_sum_memory_access_28.c line 58). -/
def chunk_start (N T t : Nat) : Nat := t * chunk_size N T

/-- End of worker `t`'s range:
`end = (tid == num_threads - 1) ? size : start + chunk_size`
(array_sum_memory_access_28.c line 59). -/
def chunk_end (N T t : Nat) : Nat :=
  if t = T - 1 then N else chunk_start N T t + chunk_size N T

/-- Indices visited by worker `t` in the contiguous-partition loop
`for (i = start; i < end; i++)`. -/
def threadIdxs (N T t : Nat) : List Nat :=
  List.range' (chunk_start N T t) (chunk_end N T t - chunk_start N T t)

/-- Indices visited by worker `t` in the interleaved loop
`for (i = tid; i < size; i += num_threads)`
(array_sum_memory_access_28.c line 156). -/
def loopIdx (N T i : Nat) : List Nat :=
  if h : i < N ∧ 0 < T then i :: loopIdx N T (i + T) else []
termination_by N - i
decreasing_by omega

-- Basic facts about wrapping sums.

theorem wordMod_pos : 0 < wordMod := by decide

theorem foldl_addW (l : List Nat) : ∀ a : Nat, l.foldl addW (a % wordMod) = (a + l.sum) % wordMod := by
  induction l with
  | nil => intro a; simp
  | cons x xs ih =>
    intro a
    have h2 : addW (a % wordMod) x = (a + x) % wordMod := by
      unfold addW
      rw [Nat.mod_add_mod]
    rw [List.foldl_cons, h2, ih (a + x), List.sum_cons]
    ring_nf

theorem mSum_eq (l : List Nat) : mSum l = l.sum % wordMod := by
  have h := foldl_addW l 0
  simpa [mSum] using h

theorem sum_map_mod (l : List Nat) (g : Nat → Nat) :
    ((l.map (fun t => g t % wordMod)).sum) % wordMod = ((l.map g).sum) % wordMod := by
  induction l with
  | nil => rfl
  | cons x xs ih =>
    simp only [List.map_cons, List.sum_cons]
    rw [Nat.add_mod, Nat.mod_mod, ← Nat.add_mod, Nat.add_mod (g x), ih, ← Nat.add_mod]

/-- The nested sum shape shared by all sum-reduction modes: each worker
folds its own value list with wrapping addition, then the reducer folds
the per-worker slots.  The result is the plain sum of all values mod 2^64. -/
theorem mSum_nested (T : Nat) (f : Nat → List Nat) :
    mSum ((List.range T).map (fun t => mSum (f t))) =
      (((List.range T).map f).flatten).sum % wordMod := by
  rw [mSum_eq]
  have h1 : (List.range T).map (fun t => mSum (f t)) =
      (List.range T).map (fun t => (f t).sum % wordMod) := by
    apply List.map_congr_left
    intro a _
    rw [mSum_eq]
  rw [h1, sum_map_mod, List.sum_flatten, List.map_map]
  rfl

-- Facts about the contiguous partition used by all chunked modes.

theorem chunk_front_le (N T : Nat) : (T - 1) * chunk_size N T ≤ N := by
  calc (T - 1) * chunk_size N T ≤ T * chunk_size N T :=
        Nat.mul_le_mul_right _ (Nat.sub_le T 1)
    _ = N / T * T := by rw [chunk_size, Nat.mul_comm]
    _ ≤ N := Nat.div_mul_le_self N T

theorem chunk_end_le (N T t : Nat) (ht : t < T) : chunk_end N T t ≤ N := by
  unfold chunk_end
  split
  · exact Nat.le_refl N
  · calc chunk_start N T t + chunk_size N T = (t + 1) * chunk_size N T := by
          unfold chunk_start; ring
      _ ≤ T * chunk_size N T := Nat.mul_le_mul_right _ ht
      _ = N / T * T := by rw [chunk_size, Nat.mul_comm]
      _ ≤ N := Nat.div_mul_le_self N T

theorem chunk_start_le_end (N T t : Nat) (ht : t < T) :
    chunk_start N T t ≤ chunk_end N T t := by
  unfold chunk_end
  split
  · rename_i h
    subst h
    exact chunk_front_le N T
  · exact Nat.le_add_right _ _

theorem chunk_end_eq_next_start (N T t : Nat) (ht : t < T - 1) :
    chunk_end N T t = chunk_start N T (t + 1) := by
  unfold chunk_end chunk_start
  rw [if_neg (by omega)]
  ring

theorem threadIdxs_mid (N T t : Nat) (ht : t < T - 1) :
    threadIdxs N T t = List.range' (t * chunk_size N T) (chunk_size N T) := by
  unfold threadIdxs chunk_end chunk_start
  rw [if_neg (by omega)]
  congr 1
  omega

theorem threadIdxs_last (N T : Nat) :
    threadIdxs N T (T - 1) = List.range' ((T - 1) * chunk_size N T) (N - (T - 1) * chunk_size N T) := by
  unfold threadIdxs chunk_end chunk_start
  rw [if_pos rfl]

theorem chunk_join_aux (N T : Nat) :
    ∀ k, k ≤ T - 1 →
      (((List.range k).map (threadIdxs N T)).flatten) = List.range' 0 (k * chunk_size N T) := by
  intro k
  induction k with
  | zero => intro _; simp
  | succ k ih =>
    intro hk
    rw [List.range_succ, List.map_append, List.flatten_append, ih (by omega)]
    simp only [List.map_cons, List.map_nil, List.flatten_cons, List.flatten_nil, List.append_nil]
    rw [threadIdxs_mid N T k (by omega)]
    have h := List.range'_append_1 0 (k * chunk_size N T) (chunk_size N T)
    rw [Nat.zero_add] at h
    rw [h]
    congr 1
    ring

/-- The concatenation of all workers' contiguous index ranges is exactly
`[0, N)`, in order: the partition covers the index space with no gap and
no overlap. -/
theorem chunk_join (N T : Nat) (hT : 0 < T) :
    (((List.range T).map (threadIdxs N T)).flatten) = List.range N := by
  obtain ⟨S, rfl⟩ : ∃ S, T = S + 1 := ⟨T - 1, by omega⟩
  rw [List.range_succ, List.map_append, List.flatten_append,
    chunk_join_aux N (S + 1) S (by omega)]
  simp only [List.map_cons, List.map_nil, List.flatten_cons, List.flatten_nil, List.append_nil]
  have hlast : threadIdxs N (S + 1) S =
      List.range' (S * chunk_size N (S + 1)) (N - S * chunk_size N (S + 1)) := by
    have h := threadIdxs_last N (S + 1)
    simpa using h
  rw [hlast]
  have h := List.range'_append_1 0 (S * chunk_size N (S + 1)) (N - S * chunk_size N (S + 1))
  rw [Nat.zero_add] at h
  rw [h]
  have hle : S * chunk_size N (S + 1) ≤ N := by
    have h2 := chunk_front_le N (S + 1)
    simpa using h2
  rw [List.range_eq_range']
  congr 1
  omega

/-- Closed form of every chunk-partitioned wrapping-sum mode: the result
is the sum of `arr` over all of `[0, N)`, reduced mod 2^64. -/
theorem chunked_sum_eq (arr : Nat → Nat) (N T : Nat) (hT : 0 < T) :
    mSum ((List.range T).map (fun t => mSum ((threadIdxs N T t).map arr))) =
      (((List.range N).map arr).sum) % wordMod := by
  rw [mSum_nested]
  congr 2
  have h1 : (List.range T).map (fun t => (threadIdxs N T t).map arr) =
      ((List.range T).map (threadIdxs N T)).map (List.map arr) := by
    rw [List.map_map]
    rfl
  rw [h1, ← List.map_flatten, chunk_join N T hT]

-- Facts about the interleaved loop `for (i = tid; i < size; i += num_threads)`.

theorem loopIdx_stop (N T i : Nat) (h : ¬(i < N ∧ 0 < T)) : loopIdx N T i = [] := by
  rw [loopIdx]
  simp [h]

theorem loopIdx_step (N T i : Nat) (h : i < N ∧ 0 < T) :
    loopIdx N T i = i :: loopIdx N T (i + T) := by
  rw [loopIdx]
  simp [h]

theorem filter_start_step (N T i : Nat) (hT : 0 < T) (hiN : i < N) :
    (List.range N).filter (fun x => decide (i ≤ x ∧ (x - i) % T = 0)) =
      i :: (List.range N).filter (fun x => decide (i + T ≤ x ∧ (x - (i + T)) % T = 0)) := by
  have hN : i + 1 ≤ N := hiN
  clear hiN
  induction N, hN using Nat.le_induction with
  | base =>
    rw [List.range_succ, List.filter_append, List.filter_append]
    have h1 : (List.range i).filter (fun x => decide (i ≤ x ∧ (x - i) % T = 0)) = [] := by
      rw [List.filter_eq_nil_iff]
      intro a ha
      simp only [List.mem_range] at ha
      simp only [decide_eq_true_eq, not_and]
      omega
    have h2 : (List.range i).filter (fun x => decide (i + T ≤ x ∧ (x - (i + T)) % T = 0)) = [] := by
      rw [List.filter_eq_nil_iff]
      intro a ha
      simp only [List.mem_range] at ha
      simp only [decide_eq_true_eq, not_and]
      omega
    have h3 : [i].filter (fun x => decide (i ≤ x ∧ (x - i) % T = 0)) = [i] := by
      simp [Nat.sub_self]
    have h4 : [i].filter (fun x => decide (i + T ≤ x ∧ (x - (i + T)) % T = 0)) = [] := by
      simp only [List.filter_cons, List.filter_nil]
      rw [if_neg]
      simp only [decide_eq_true_eq, not_and]
      omega
    rw [h1, h2, h3, h4]
    rfl
  | succ M hM ih =>
    rw [List.range_succ, List.filter_append, List.filter_append, ih, List.cons_append]
    congr 1
    congr 1
    simp only [List.filter_cons, List.filter_nil]
    have hiff : (i ≤ M ∧ (M - i) % T = 0) ↔ (i + T ≤ M ∧ (M - (i + T)) % T = 0) := by
      constructor
      · rintro ⟨hle, hmod⟩
        have hd : T ∣ (M - i) := Nat.dvd_iff_mod_eq_zero.mpr hmod
        have hpos : 0 < M - i := by omega
        have hTle : T ≤ M - i := Nat.le_of_dvd hpos hd
        refine ⟨by omega, ?_⟩
        have heq : M - (i + T) = (M - i) - T := by omega
        rw [heq]
        exact Nat.dvd_iff_mod_eq_zero.mp (Nat.dvd_sub' hd dvd_rfl)
      · rintro ⟨hle, hmod⟩
        refine ⟨by omega, ?_⟩
        have heq : M - i = (M - (i + T)) + T := by omega
        rw [heq, Nat.add_mod_right]
        exact hmod
    rw [decide_eq_decide.mpr hiff]

theorem loopIdx_eq_filter_aux (N T : Nat) (hT : 0 < T) :
    ∀ fuel i, N - i ≤ fuel →
      loopIdx N T i = (List.range N).filter (fun x => decide (i ≤ x ∧ (x - i) % T = 0)) := by
  intro fuel
  induction fuel with
  | zero =>
    intro i hi
    rw [loopIdx_stop N T i (by omega)]
    symm
    rw [List.filter_eq_nil_iff]
    intro a ha
    simp only [List.mem_range] at ha
    simp only [decide_eq_true_eq, not_and]
    omega
  | succ fuel ih =>
    intro i hi
    by_cases hiN : i < N
    · rw [loopIdx_step N T i ⟨hiN, hT⟩, ih (i + T) (by omega),
        ← filter_start_step N T i hT hiN]
    · rw [loopIdx_stop N T i (by omega)]
      symm
      rw [List.filter_eq_nil_iff]
      intro a ha
      simp only [List.mem_range] at ha
      simp only [decide_eq_true_eq, not_and]
      omega

theorem loopIdx_eq_filter (N T i : Nat) (hT : 0 < T) :
    loopIdx N T i = (List.range N).filter (fun x => decide (i ≤ x ∧ (x - i) % T = 0)) :=
  loopIdx_eq_filter_aux N T hT (N - i) i (Nat.le_refl _)

theorem start_mod_iff (T t x : Nat) (ht : t < T) :
    (t ≤ x ∧ (x - t) % T = 0) ↔ x % T = t := by
  constructor
  · rintro ⟨hle, hmod⟩
    obtain ⟨k, hk⟩ := Nat.dvd_iff_mod_eq_zero.mpr hmod
    have hx : x = t + T * k := by omega
    rw [hx, Nat.add_mul_mod_self_left, Nat.mod_eq_of_lt ht]
  · intro hmod
    have hdm := Nat.div_add_mod x T
    constructor
    · omega
    · have hsub : x - t = T * (x / T) := by omega
      rw [hsub]
      exact Nat.dvd_iff_mod_eq_zero.mp ⟨x / T, rfl⟩

theorem loopIdx_eq_mod_filter (N T t : Nat) (hT : 0 < T) (ht : t < T) :
    loopIdx N T t = (List.range N).filter (fun x => decide (x % T = t)) := by
  rw [loopIdx_eq_filter N T t hT]
  apply List.filter_congr
  intro x _
  rw [decide_eq_decide]
  exact start_mod_iff T t x ht

theorem count_mod_filter (N T t a : Nat) :
    (((List.range N).filter (fun x => decide (x % T = t))).count a) =
      if a < N ∧ a % T = t then 1 else 0 := by
  by_cases hp : a % T = t
  · rw [List.count_filter (by simp [hp])]
    by_cases haN : a < N
    · rw [if_pos ⟨haN, hp⟩]
      exact List.count_eq_one_of_mem (List.nodup_range N) (List.mem_range.mpr haN)
    · rw [if_neg (by tauto)]
      exact List.count_eq_zero_of_not_mem (by simp only [List.mem_range]; omega)
  · rw [if_neg (by tauto)]
    apply List.count_eq_zero_of_not_mem
    intro hmem
    have h2 := (List.mem_filter.mp hmem).2
    simp only [decide_eq_true_eq] at h2
    exact hp h2

theorem sum_ite_range (T c v : Nat) (hc : c < T) :
    ((List.range T).map (fun t => if c = t then v else 0)).sum = v := by
  induction T with
  | zero => omega
  | succ T ih =>
    rw [List.range_succ, List.map_append, List.sum_append]
    by_cases h : c < T
    · rw [ih h]
      have h2 : ([T].map (fun t => if c = t then v else 0)).sum = 0 := by
        simp only [List.map_cons, List.map_nil, List.sum_cons, List.sum_nil]
        rw [if_neg (by omega)]
        omega
      rw [h2]
      omega
    · have hcT : c = T := by omega
      subst hcT
      have h2 : ((List.range c).map (fun t => if c = t then v else 0)) =
          (List.range c).map (fun _ => 0) := by
        apply List.map_congr_left
        intro a ha
        simp only [List.mem_range] at ha
        rw [if_neg (by omega)]
      rw [h2]
      simp

/-- Every index of `[0, N)` occurs exactly once across the `T` interleaved
worker sequences: their concatenation is a permutation of `[0, N)`. -/
theorem loopIdx_flatten_perm (N T : Nat) (hT : 0 < T) :
    (((List.range T).map (loopIdx N T)).flatten).Perm (List.range N) := by
  rw [List.perm_iff_count]
  intro a
  rw [List.count_flatten, List.map_map]
  have h1 : ((List.range T).map (List.count a ∘ loopIdx N T)) =
      (List.range T).map (fun t => if a < N ∧ a % T = t then 1 else 0) := by
    apply List.map_congr_left
    intro t ht
    simp only [Function.comp_apply]
    rw [loopIdx_eq_mod_filter N T t hT (List.mem_range.mp ht), count_mod_filter]
  rw [h1]
  by_cases haN : a < N
  · have h2 : ((List.range T).map (fun t => if a < N ∧ a % T = t then 1 else 0)) =
        (List.range T).map (fun t => if a % T = t then 1 else 0) := by
      apply List.map_congr_left
      intro t _
      by_cases h : a % T = t <;> simp [h, haN]
    rw [h2, sum_ite_range T (a % T) 1 (Nat.mod_lt a hT)]
    exact (List.count_eq_one_of_mem (List.nodup_range N) (List.mem_range.mpr haN)).symm
  · have h2 : ((List.range T).map (fun t => if a < N ∧ a % T = t then 1 else 0)) =
        (List.range T).map (fun _ => 0) := by
      apply List.map_congr_left
      intro t _
      rw [if_neg (by tauto)]
    rw [h2]
    have h3 : a ∉ List.range N := by
      simp only [List.mem_range]
      omega
    rw [List.count_eq_zero_of_not_mem h3]
    simp

/-- With a stride coprime to `N`, the map `i ↦ i * stride % N` permutes
`[0, N)`: the strided traversal touches every index exactly once. -/
theorem mul_mod_perm (N s : Nat) (hco : Nat.Coprime s N) :
    ((List.range N).map (fun i => i * s % N)).Perm (List.range N) := by
  rcases Nat.eq_zero_or_pos N with hN | hN
  · subst hN
    simp
  have hinj : ∀ x ∈ List.range N, ∀ y ∈ List.range N, x * s % N = y * s % N → x = y := by
    intro x hx y hy hxy
    have hx2 := List.mem_range.mp hx
    have hy2 := List.mem_range.mp hy
    have hmod : x ≡ y [MOD N] :=
      Nat.ModEq.cancel_right_of_coprime (Nat.Coprime.symm hco) hxy
    calc x = x % N := (Nat.mod_eq_of_lt hx2).symm
      _ = y % N := hmod
      _ = y := Nat.mod_eq_of_lt hy2
  have hsurj : ∀ k, k < N → ∃ i, i < N ∧ i * s % N = k := by
    intro k hk
    rcases Nat.lt_or_ge N 2 with hN2 | hN2
    · have hN1 : N = 1 := by omega
      subst hN1
      refine ⟨0, by omega, ?_⟩
      omega
    · obtain ⟨m, hm⟩ := Nat.exists_mul_emod_eq_one_of_coprime hco hN2
      refine ⟨k * m % N, Nat.mod_lt _ (by omega), ?_⟩
      calc (k * m % N) * s % N = (k * m) * s % N := by
            rw [Nat.mul_mod, Nat.mod_mod, ← Nat.mul_mod]
        _ = k * (s * m) % N := by ring_nf
        _ = (k % N) * ((s * m) % N) % N := by rw [← Nat.mul_mod]
        _ = (k % N) * 1 % N := by rw [hm]
        _ = k := by rw [Nat.mul_one, Nat.mod_mod, Nat.mod_eq_of_lt hk]
  apply List.perm_of_nodup_nodup_toFinset_eq
  · exact List.Nodup.map_on hinj (List.nodup_range N)
  · exact List.nodup_range N
  · apply Finset.ext
    intro a
    simp only [List.mem_toFinset, List.mem_map, List.mem_range]
    constructor
    · rintro ⟨i, _, rfl⟩
      exact Nat.mod_lt _ hN
    · intro ha
      obtain ⟨i, hi, hieq⟩ := hsurj a ha
      exact ⟨i, hi, hieq⟩

theorem mSum_map_mod (l : List Nat) (g : Nat → Nat) :
    mSum (l.map (fun t => g t % wordMod)) = ((l.map g).sum) % wordMod := by
  rw [mSum_eq, sum_map_mod]

/-- Closed form of the strided interleaved sum: the result is the sum of
`arr ((i * s mod 2^64) mod N)` over all of `[0, N)`, reduced mod 2^64,
for any thread count.  The index `(i * stride) % size` is computed in C
`unsigned long` arithmetic, so the product `i * stride` wraps modulo
2^64 before the reduction modulo `size`. -/
theorem strided_sum_eq (arr : Nat → Nat) (N T s : Nat) (hT : 0 < T) :
    mSum ((List.range T).map
        (fun t => mSum ((loopIdx N T t).map (fun i => arr (i * s % wordMod % N))))) =
      (((List.range N).map (fun i => arr (i * s % wordMod % N))).sum) % wordMod := by
  rw [mSum_nested]
  have h1 : (List.range T).map (fun t => (loopIdx N T t).map (fun i => arr (i * s % wordMod % N))) =
      ((List.range T).map (loopIdx N T)).map (List.map (fun i => arr (i * s % wordMod % N))) := by
    rw [List.map_map]
    rfl
  rw [h1, ← List.map_flatten]
  congr 1
  exact ((loopIdx_flatten_perm N T hT).map _).sum_eq

/-- When the product `i * s` cannot reach 2^64 for any `i < N`, the
wrapped strided index agrees with the unwrapped one on all of `[0, N)`. -/
theorem strided_idx_no_wrap (N s : Nat) (hwrap : (N - 1) * s < wordMod) :
    (List.range N).map (fun i => i * s % wordMod % N) =
      (List.range N).map (fun i => i * s % N) := by
  apply List.map_congr_left
  intro i hi
  simp only [List.mem_range] at hi
  have h1 : i * s ≤ (N - 1) * s := Nat.mul_le_mul_right s (by omega)
  have h2 : i * s < wordMod := by omega
  rw [Nat.mod_eq_of_lt h2]

-- Sum of the `load_array` fill: the Gauss formula.

theorem range_map_succ_sum (N : Nat) :
    ((List.range N).map (fun i => i + 1)).sum = N * (N + 1) / 2 := by
  induction N with
  | zero => rfl
  | succ N ih =>
    rw [List.range_succ, List.map_append, List.sum_append, ih]
    simp only [List.map_cons, List.map_nil, List.sum_cons, List.sum_nil]
    obtain ⟨k, hk⟩ : 2 ∣ N * (N + 1) := (Nat.even_mul_succ_self N).two_dvd
    obtain ⟨m, hm⟩ : 2 ∣ (N + 1) * (N + 1 + 1) := (Nat.even_mul_succ_self (N + 1)).two_dvd
    have h3 : m = k + (N + 1) := by
      have h4 : 2 * m = 2 * (k + (N + 1)) := by
        rw [← hm]
        have h5 : (N + 1) * (N + 1 + 1) = N * (N + 1) + 2 * (N + 1) := by ring
        rw [h5, hk]
        ring
      omega
    rw [hk, hm, h3, Nat.mul_div_cancel_left _ (by norm_num),
      Nat.mul_div_cancel_left _ (by norm_num)]
    omega

theorem load_array_sum (N : Nat) (hN : N < wordMod) :
    ((List.range N).map load_array).sum = N * (N + 1) / 2 := by
  have h1 : (List.range N).map load_array = (List.range N).map (fun i => i + 1) := by
    apply List.map_congr_left
    intro a ha
    simp only [List.mem_range] at ha
    unfold load_array
    exact Nat.mod_eq_of_lt (by omega)
  rw [h1, range_map_succ_sum]

namespace MemAccess28

/-- Result of `sum_good` (array_sum_memory_access_28.c lines 36-77):
worker `tid` adds `array[i]` for `i` in its contiguous chunk into its own
cache-line-padded slot; after the barrier the slots are added up. -/
def sum_good (arr : Nat → Nat) (N T : Nat) : Nat :=
  mSum ((List.range T).map (fun t => mSum ((threadIdxs N T t).map arr)))

/-- Result of `sum_bad_fs` (array_sum_memory_access_28.c lines 80-121):
identical traversal and aggregation as `sum_good`; the only difference in
the source is the accumulator layout (adjacent `unsigned long` slots
instead of cache-line-padded structs), which changes timing only, never
the values computed. -/
def sum_bad_fs (arr : Nat → Nat) (N T : Nat) : Nat :=
  mSum ((List.range T).map (fun t => mSum ((threadIdxs N T t).map arr)))

/-- Result of `sum_bad_ma` (array_sum_memory_access_28.c lines 124-171):
worker `tid` visits `i = tid, tid + T, ...` below `size` and adds
`array[(i * stride) % size]` into its own padded slot.  The index is an
`unsigned long` expression: the product `i * stride` wraps modulo 2^64
before the reduction modulo `size`, hence `i * s % wordMod % N`. -/
def sum_bad_ma (arr : Nat → Nat) (N T s : Nat) : Nat :=
  mSum ((List.range T).map
    (fun t => mSum ((loopIdx N T t).map (fun i => arr (i * s % wordMod % N)))))

end MemAccess28

namespace InitVar29

/-- Result of `sum_bad_ma` (matrix_init_access_variation_29.c lines
124-162): worker `tid` walks its contiguous chunk of the shuffled index
array and adds `array[shuffled_indices[i]]` into its own padded slot. -/
def sum_bad_ma (arr : Nat → Nat) (N T : Nat) (perm : Nat → Nat) : Nat :=
  mSum ((List.range T).map (fun t => mSum (((threadIdxs N T t).map perm).map arr)))

end InitVar29

theorem sum_good_eq (arr : Nat → Nat) (N T : Nat) (hT : 0 < T) :
    MemAccess28.sum_good arr N T = (((List.range N).map arr).sum) % wordMod :=
  chunked_sum_eq arr N T hT

theorem sum_bad_fs_eq (arr : Nat → Nat) (N T : Nat) (hT : 0 < T) :
    MemAccess28.sum_bad_fs arr N T = (((List.range N).map arr).sum) % wordMod :=
  chunked_sum_eq arr N T hT

theorem sum_bad_ma_eq (arr : Nat → Nat) (N T s : Nat) (hT : 0 < T) :
    MemAccess28.sum_bad_ma arr N T s =
      (((List.range N).map (fun i => arr (i * s % wordMod % N))).sum) % wordMod :=
  strided_sum_eq arr N T s hT

theorem sum_bad_ma_coprime_eq (arr : Nat → Nat) (N T s : Nat) (hT : 0 < T)
    (hco : Nat.Coprime s N) (hwrap : (N - 1) * s < wordMod) :
    MemAccess28.sum_bad_ma arr N T s = (((List.range N).map arr).sum) % wordMod := by
  rw [sum_bad_ma_eq arr N T s hT]
  congr 1
  have h1 : (List.range N).map (fun i => arr (i * s % wordMod % N)) =
      ((List.range N).map (fun i => i * s % wordMod % N)).map arr := by
    rw [List.map_map]
    rfl
  rw [h1, strided_idx_no_wrap N s hwrap]
  exact ((mul_mod_perm N s hco).map arr).sum_eq

theorem sum_perm_raw (arr : Nat → Nat) (N T : Nat) (perm : Nat → Nat) (hT : 0 < T) :
    InitVar29.sum_bad_ma arr N T perm =
      (((List.range N).map (fun i => arr (perm i))).sum) % wordMod := by
  unfold InitVar29.sum_bad_ma
  have h3 : (List.range T).map (fun t => mSum (((threadIdxs N T t).map perm).map arr)) =
      (List.range T).map (fun t => mSum ((threadIdxs N T t).map (fun i => arr (perm i)))) := by
    apply List.map_congr_left
    intro t _
    rw [List.map_map]
    rfl
  rw [h3]
  exact chunked_sum_eq (fun i => arr (perm i)) N T hT

theorem sum_perm_eq (arr : Nat → Nat) (N T : Nat) (perm : Nat → Nat) (hT : 0 < T)
    (hperm : ((List.range N).map perm).Perm (List.range N)) :
    InitVar29.sum_bad_ma arr N T perm = (((List.range N).map arr).sum) % wordMod := by
  rw [sum_perm_raw arr N T perm hT]
  congr 1
  have h4 : (List.range N).map (fun i => arr (perm i)) =
      ((List.range N).map perm).map arr := by
    rw [List.map_map]
    rfl
  rw [h4]
  exact (hperm.map arr).sum_eq

namespace MatCmp31

/-- Contents of matrix `A` after `initialize_matrices`
(matrix_compare_memory_modes_31.c lines 17-30): `A[i] = i % 100`. -/
def initA (i : Nat) : Nat := i % 100

/-- Contents of matrix `B` after `initialize_matrices`: first `B[i] = A[i]`,
then every 1000th element is bumped: `B[i] = A[i] + 1` for `i % 1000 = 0`
(the loop `for (i = 0; i < size; i += 1000)`). -/
def initB (i : Nat) : Nat := if i % 1000 = 0 then (i % 100 + 1) % wordMod else i % 100

/-- One iteration of the comparison loop body:
`if (A[i] != B[i]) partial_diffs[tid]++` with a wrapping increment. -/
def diffStep (A B : Nat → Nat) (acc i : Nat) : Nat :=
  if A i ≠ B i then addW acc 1 else acc

/-- Per-worker mismatch counter: fold of the comparison loop over the
worker's index list, starting from zero. -/
def diffCount (A B : Nat → Nat) (l : List Nat) : Nat := l.foldl (diffStep A B) 0

/-- Result of `compare_good` (matrix_compare_memory_modes_31.c lines
44-87): each worker counts mismatches over its contiguous chunk into its
own padded slot; the slots are then added up. -/
def compare_good (A B : Nat → Nat) (N T : Nat) : Nat :=
  mSum ((List.range T).map (fun t => diffCount A B (threadIdxs N T t)))

/-- Result of `compare_bad_fs` (lines 90-133): identical traversal and
counting as `compare_good`; only the (semantically inert) accumulator
layout differs in the source. -/
def compare_bad_fs (A B : Nat → Nat) (N T : Nat) : Nat :=
  mSum ((List.range T).map (fun t => diffCount A B (threadIdxs N T t)))

/-- Result of `compare_bad_ma` (lines 136-180): each worker walks its
contiguous chunk of positions `i` and compares `A` and `B` at the
permuted index `shuffled_indices[i]`. -/
def compare_bad_ma (A B : Nat → Nat) (N T : Nat) (perm : Nat → Nat) : Nat :=
  mSum ((List.range T).map (fun t => diffCount A B ((threadIdxs N T t).map perm)))

end MatCmp31

theorem diffCount_foldl (A B : Nat → Nat) (l : List Nat) :
    ∀ a : Nat, l.foldl (MatCmp31.diffStep A B) (a % wordMod) =
      (a + l.countP (fun i => decide (A i ≠ B i))) % wordMod := by
  induction l with
  | nil =>
    intro a
    simp
  | cons x xs ih =>
    intro a
    rw [List.foldl_cons]
    by_cases hx : A x = B x
    · have h1 : MatCmp31.diffStep A B (a % wordMod) x = a % wordMod := by
        unfold MatCmp31.diffStep
        rw [if_neg (by simp [hx])]
      rw [h1, ih a, List.countP_cons, if_neg (by simp [hx])]
      rw [Nat.add_zero]
    · have h1 : MatCmp31.diffStep A B (a % wordMod) x = (a + 1) % wordMod := by
        unfold MatCmp31.diffStep addW
        rw [if_pos hx, Nat.mod_add_mod]
      rw [h1, ih (a + 1), List.countP_cons, if_pos (by simp [hx])]
      congr 1
      omega

theorem diffCount_eq (A B : Nat → Nat) (l : List Nat) :
    MatCmp31.diffCount A B l = (l.countP (fun i => decide (A i ≠ B i))) % wordMod := by
  have h := diffCount_foldl A B l 0
  simpa [MatCmp31.diffCount] using h

/-- Closed form of both chunked comparison modes: the number of
mismatching positions in `[0, N)`, reduced mod 2^64, for any positive
thread count. -/
theorem chunked_count_eq (A B : Nat → Nat) (N T : Nat) (hT : 0 < T) :
    MatCmp31.compare_good A B N T =
      ((List.range N).countP (fun i => decide (A i ≠ B i))) % wordMod := by
  unfold MatCmp31.compare_good
  have h1 : (List.range T).map (fun t => MatCmp31.diffCount A B (threadIdxs N T t)) =
      (List.range T).map
        (fun t => ((threadIdxs N T t).countP (fun i => decide (A i ≠ B i))) % wordMod) := by
    apply List.map_congr_left
    intro t _
    rw [diffCount_eq]
  rw [h1, mSum_map_mod]
  congr 1
  have h2 : (List.range T).map (fun t => (threadIdxs N T t).countP (fun i => decide (A i ≠ B i))) =
      ((List.range T).map (threadIdxs N T)).map (List.countP (fun i => decide (A i ≠ B i))) := by
    rw [List.map_map]
    rfl
  rw [h2, ← List.countP_flatten, chunk_join N T hT]

/-- Closed form of the permuted comparison mode for an arbitrary index
map: the mismatches of `A ∘ perm` and `B ∘ perm` over `[0, N)`. -/
theorem perm_count_raw (A B : Nat → Nat) (N T : Nat) (perm : Nat → Nat) (hT : 0 < T) :
    MatCmp31.compare_bad_ma A B N T perm =
      ((List.range N).countP (fun i => decide (A (perm i) ≠ B (perm i)))) % wordMod := by
  unfold MatCmp31.compare_bad_ma
  have h1 : (List.range T).map (fun t => MatCmp31.diffCount A B ((threadIdxs N T t).map perm)) =
      (List.range T).map
        (fun t => ((threadIdxs N T t).countP (fun i => decide (A (perm i) ≠ B (perm i)))) % wordMod) := by
    apply List.map_congr_left
    intro t _
    rw [diffCount_eq, List.countP_map]
    rfl
  rw [h1, mSum_map_mod]
  congr 1
  have h2 : (List.range T).map
      (fun t => (threadIdxs N T t).countP (fun i => decide (A (perm i) ≠ B (perm i)))) =
      ((List.range T).map (threadIdxs N T)).map
        (List.countP (fun i => decide (A (perm i) ≠ B (perm i)))) := by
    rw [List.map_map]
    rfl
  rw [h2, ← List.countP_flatten, chunk_join N T hT]

/-- Closed form of the permuted comparison mode, given that the shuffled
index array is a permutation of `[0, N)`. -/
theorem perm_count_eq (A B : Nat → Nat) (N T : Nat) (perm : Nat → Nat) (hT : 0 < T)
    (hperm : ((List.range N).map perm).Perm (List.range N)) :
    MatCmp31.compare_bad_ma A B N T perm =
      ((List.range N).countP (fun i => decide (A i ≠ B i))) % wordMod := by
  rw [perm_count_raw A B N T perm hT]
  congr 1
  have h3 : (List.range N).countP (fun i => decide (A (perm i) ≠ B (perm i))) =
      ((List.range N).map perm).countP (fun i => decide (A i ≠ B i)) := by
    rw [List.countP_map]
    rfl
  rw [h3]
  exact hperm.countP_eq _

theorem initAB_ne_iff (i : Nat) : (MatCmp31.initA i ≠ MatCmp31.initB i) ↔ i % 1000 = 0 := by
  unfold MatCmp31.initA MatCmp31.initB
  by_cases h : i % 1000 = 0
  · simp only [h, if_pos]
    have h100 : i % 100 + 1 < wordMod := by
      have h2 : i % 100 < 100 := Nat.mod_lt i (by norm_num)
      have h3 : (100 : Nat) < wordMod := by decide
      omega
    rw [Nat.mod_eq_of_lt h100]
    simp only [iff_true_intro h, iff_true]
    omega
  · simp [h]

theorem count_thousandths_aux :
    ∀ M : Nat, (List.range M).countP (fun i => decide (i % 1000 = 0)) =
      if M = 0 then 0 else (M - 1) / 1000 + 1 := by
  intro M
  induction M with
  | zero => simp
  | succ M ih =>
    rw [List.range_succ, List.countP_append, ih]
    have h1 : [M].countP (fun i => decide (i % 1000 = 0)) =
        if M % 1000 = 0 then 1 else 0 := by
      rw [List.countP_cons, List.countP_nil]
      by_cases h : M % 1000 = 0 <;> simp [h]
    rw [h1]
    by_cases hM : M = 0
    · subst hM
      simp
    · rw [if_neg hM, if_neg (by omega : ¬(M + 1 = 0))]
      by_cases h : M % 1000 = 0
      · rw [if_pos h]
        omega
      · rw [if_neg h]
        omega

/-- Number of mismatching positions between the initialized matrices in
`[0, N)`: one for every multiple of 1000 below `N`. -/
theorem mismatch_count (N : Nat) (hN : 1 ≤ N) :
    (List.range N).countP (fun i => decide (MatCmp31.initA i ≠ MatCmp31.initB i)) =
      (N - 1) / 1000 + 1 := by
  have h1 : (List.range N).countP (fun i => decide (MatCmp31.initA i ≠ MatCmp31.initB i)) =
      (List.range N).countP (fun i => decide (i % 1000 = 0)) := by
    apply List.countP_congr
    intro x _
    simp only [decide_eq_true_eq]
    exact initAB_ne_iff x
  rw [h1, count_thousandths_aux N, if_neg (by omega)]

/-- Mode strings accepted by the three-mode programs
(`strcmp` checks against "good", "bad-fs", "bad-ma"). -/
def validMode (m : String) : Bool := m == "good" || m == "bad-fs" || m == "bad-ma"

/-- Pre-allocation validation of `main` in array_sum_memory_access_28.c
(lines 173-199): the mode string, `size == 0` and `threads <= 0` are all
checked, each causing a non-zero exit, before the array allocation.
`true` means the run is rejected before any allocation. -/
def MemAccess28.rejectsBeforeAlloc (mode : String) (size : Nat) (threads : Int) : Bool :=
  !(validMode mode) || size == 0 || decide (threads ≤ 0)

/-- Pre-allocation validation of `main` in matrix_compare_memory_modes_31.c
(lines 182-208): same checks as array_sum_memory_access_28.c, all before
the matrix allocations. -/
def MatCmp31.rejectsBeforeAlloc (mode : String) (size : Nat) (threads : Int) : Bool :=
  !(validMode mode) || size == 0 || decide (threads ≤ 0)

/-- Pre-allocation validation of `main` in matrix_init_access_variation_29.c
(lines 164-190): same checks, all before the array allocation. -/
def InitVar29.rejectsBeforeAlloc (mode : String) (size : Nat) (threads : Int) : Bool :=
  !(validMode mode) || size == 0 || decide (threads ≤ 0)

namespace Sim14

/-- Pre-allocation validation of `main` in array_sum_false_sharing_sim_14.c
(lines 13-44): after the argument-count check, only the mode string is
validated; `size` and `threads` are used without any check before the
array allocation at line 40. -/
def rejectsBeforeAlloc (mode : String) (size : Nat) (threads : Int) : Bool :=
  !(validMode mode)

/-- Sequence of array indices read by the good-mode reduction loop
`for (i = 0; i < size; i++) sum += array[i]`
(array_sum_false_sharing_sim_14.c lines 59-62). -/
def goodVisits (N : Nat) : List Nat := List.range N

/-- Sequence of array indices read by the bad-ma-mode loop (lines 87-95):
the loop body is `sum += array[i]` for `i = 0 .. size-1`; the local
variable `stride = 64` (line 90) is declared but never applied to the
index, so the traversal is the same linear order as in good mode. -/
def badMaVisits (N : Nat) : List Nat := List.range N

/-- The `stride` local declared, and never used, in bad-ma mode (line 90). -/
def declaredStride : Nat := 64

end Sim14

namespace MatInit23

/-- Per-chunk size of the OpenMP `schedule(static)` partition of the
outer loop `for (i = 0; i < N; i++)`: contiguous blocks of
`ceil(N / threads)` iterations, one block per thread in thread order. -/
def staticChunk (N T : Nat) : Nat := (N + T - 1) / T

/-- Thread id that executes outer-loop iteration `i` under the static
schedule. -/
def staticTid (N T i : Nat) : Nat := i / staticChunk N T

/-- Final contents of cell `a[row][col]` after `good_mode`
(matrix_init_access_modes_23.c lines 7-14): every cell of the N x N
matrix is written with 17, independent of the schedule; `none` models a
cell that is never written. -/
def good_mode (N row col : Nat) : Option Nat :=
  if row < N ∧ col < N then some 17 else none

/-- Final contents of cell `a[row][col]` after `bad_ma_mode` (lines
30-37): the same writes as `good_mode`, performed in column-major order;
the final contents are identical and schedule-independent. -/
def bad_ma_mode (N row col : Nat) : Option Nat :=
  if row < N ∧ col < N then some 17 else none

/-- Final contents of cell `a[row][col]` after `bad_fs_mode` (lines
18-26): outer-loop iteration `col` is executed by thread
`tid = staticTid N T col`, whose inner loop
`for (j = tid; j < N; j += threads) a[j][col] = 17 + tid;`
writes only the rows `j = tid, tid + T, ...`; every other cell of column
`col` is never written (`none`). -/
def bad_fs_mode (N T row col : Nat) : Option Nat :=
  if row < N ∧ col < N ∧ staticTid N T col ≤ row ∧ (row - staticTid N T col) % T = 0
  then some (17 + staticTid N T col) else none

/-- Pre-allocation validation of `main` (lines 39-77): only the mode
string is checked before the allocations; `N` and `threads` are
unchecked. -/
def rejectsBeforeAlloc (mode : String) (size : Nat) (threads : Int) : Bool :=
  !(validMode mode)

end MatInit23

namespace PerfVar10

/-- Result of `sum_linear` (array_sum_performance_variation_10.c lines
34-43): sequential wrapping sum of the whole array. -/
def sum_linear (arr : Nat → Nat) (N : Nat) : Nat := mSum ((List.range N).map arr)

/-- One iteration of the `modify_and_sum` loop (lines 70-80):
`array[i] += 1; sum += array[i];` with unsigned wraparound, acting on the
state (array contents, running sum). -/
def modifyStep (st : (Nat → Nat) × Nat) (i : Nat) : (Nat → Nat) × Nat :=
  let a2 : Nat → Nat := fun k => if k = i then (st.1 k + 1) % wordMod else st.1 k
  (a2, (st.2 + a2 i) % wordMod)

/-- Result of `modify_and_sum`: the final array contents and the reported
sum after the loop over `[0, N)`. -/
def modify_and_sum (arr : Nat → Nat) (N : Nat) : (Nat → Nat) × Nat :=
  (List.range N).foldl modifyStep (arr, 0)

/-- Pre-allocation validation of `main` (lines 82-101): the argument
count and `size == 0` are checked before the buffer allocation; the mode
string is examined only later (line 128), after allocation. -/
def rejectsBeforeAlloc (mode : String) (size : Nat) (threads : Int) : Bool :=
  size == 0

/-- Mode check performed after the allocation (lines 120-134): this
program accepts only "good" and "bad". -/
def rejectsAfterAlloc (mode : String) : Bool := !(mode == "good" || mode == "bad")

end PerfVar10

-- Model of `shuffle_array` / `shuffle_indices` (the in-place shuffle).

/-- Contents of the array `f` after the three-assignment swap of the
entries at positions `a` and `b` (`temp = indices[i]; indices[i] =
indices[j]; indices[j] = temp;`). -/
def swapAt (f : Nat → Nat) (a b : Nat) : Nat → Nat :=
  fun m => if m = a then f b else if m = b then f a else f m

/-- The position permutation underlying `swapAt`: exchanges `a` and `b`. -/
def swapPos (a b : Nat) : Nat → Nat :=
  fun m => if m = a then b else if m = b then a else m

/-- The loop of `shuffle_array` (array_sum_memory_access_28.c lines
25-33), run from position `i` down to 1: at position `i > 0` the entry is
swapped with the entry at `j = r i % (i + 1)`, where `r i` models the
`rand()` value drawn at that iteration. -/
def shuffleAux (r : Nat → Nat) : Nat → (Nat → Nat) → (Nat → Nat)
  | 0, f => f
  | i + 1, f => shuffleAux r i (swapAt f (i + 1) (r (i + 1) % (i + 2)))

/-- Contents of the index array of length `N` after `shuffle_array`
when `N >= 1`: the loop starts at position `size - 1`.  (For `N = 0` the
C loop is not entered this way at all: the unsigned counter wraps, see
`shuffleInitialIndex`.) -/
def shuffle_array (r : Nat → Nat) (N : Nat) (f : Nat → Nat) : Nat → Nat :=
  shuffleAux r (N - 1) f

/-- Number of positions `m < N` at which the array `f` holds the value `k`. -/
def occursCount (f : Nat → Nat) (N k : Nat) : Nat :=
  ((Finset.range N).filter (fun m => f m = k)).card

/-- Initial value of the unsigned loop counter `i = size - 1` in
`shuffle_array`, with the C unsigned wraparound made explicit: for
`size = 0` this is `2^64 - 1`. -/
def shuffleInitialIndex (size : Nat) : Nat := (size + (wordMod - 1)) % wordMod

/-- Whether the loop guard `i > 0` holds at loop entry. -/
def shuffleEntersLoop (size : Nat) : Bool := decide (0 < shuffleInitialIndex size)

/-- The divisor `i + 1` (as unsigned long) of the first `rand() % (i + 1)`
operation, evaluated at loop entry. -/
def shuffleFirstModulus (size : Nat) : Nat := (shuffleInitialIndex size + 1) % wordMod

theorem swapAt_eq_comp (f : Nat → Nat) (a b m : Nat) :
    swapAt f a b m = f (swapPos a b m) := by
  unfold swapAt swapPos
  split_ifs <;> simp_all

theorem swapPos_invol (a b m : Nat) : swapPos a b (swapPos a b m) = m := by
  unfold swapPos
  split_ifs <;> omega

theorem occursCount_swapAt (f : Nat → Nat) (N a b k : Nat) (ha : a < N) (hb : b < N) :
    occursCount (swapAt f a b) N k = occursCount f N k := by
  unfold occursCount
  apply Finset.card_nbij (swapPos a b)
  · intro m hm
    simp only [Finset.mem_filter, Finset.mem_range] at hm ⊢
    refine ⟨?_, ?_⟩
    · unfold swapPos
      split_ifs <;> omega
    · have h3 := hm.2
      rw [swapAt_eq_comp] at h3
      exact h3
  · intro x hx y hy hxy
    have h2 := congrArg (swapPos a b) hxy
    rwa [swapPos_invol, swapPos_invol] at h2
  · intro y hy
    simp only [Finset.coe_filter, Set.mem_setOf_eq, Finset.mem_range] at hy
    refine ⟨swapPos a b y, ?_, swapPos_invol a b y⟩
    simp only [Finset.coe_filter, Set.mem_setOf_eq, Finset.mem_range]
    refine ⟨?_, ?_⟩
    · unfold swapPos
      split_ifs <;> omega
    · rw [swapAt_eq_comp, swapPos_invol]
      exact hy.2

theorem shuffleAux_occursCount (r : Nat → Nat) (N : Nat) :
    ∀ i f, i < N → ∀ k, occursCount (shuffleAux r i f) N k = occursCount f N k := by
  intro i
  induction i with
  | zero =>
    intro f _ k
    rfl
  | succ i ih =>
    intro f hi k
    have hstep : shuffleAux r (i + 1) f =
        shuffleAux r i (swapAt f (i + 1) (r (i + 1) % (i + 2))) := rfl
    rw [hstep, ih _ (by omega)]
    have hj : r (i + 1) % (i + 2) < N := by
      have h2 := Nat.mod_lt (r (i + 1)) (show 0 < i + 2 by omega)
      omega
    exact occursCount_swapAt f N (i + 1) (r (i + 1) % (i + 2)) k hi hj

theorem occursCount_id (N k : Nat) (hk : k < N) : occursCount (fun m => m) N k = 1 := by
  unfold occursCount
  have h1 : (Finset.range N).filter (fun m => m = k) = {k} := by
    apply Finset.ext
    intro a
    simp only [Finset.mem_filter, Finset.mem_range, Finset.mem_singleton]
    omega
  rw [h1, Finset.card_singleton]

/-- After shuffling the identity-filled index array of length `N >= 1`,
every value `k < N` still occurs at exactly one position below `N`: the
shuffle output is a permutation of `[0, N)`. -/
theorem shuffle_array_occursCount (r : Nat → Nat) (N k : Nat) (hN : 1 ≤ N) (hk : k < N) :
    occursCount (shuffle_array r N (fun m => m)) N k = 1 := by
  unfold shuffle_array
  rw [shuffleAux_occursCount r N (N - 1) (fun m => m) (by omega) k]
  exact occursCount_id N k hk

theorem sum_map_add_one (f : Nat → Nat) (l : List Nat) :
    (l.map (fun i => f i + 1)).sum = (l.map f).sum + l.length := by
  induction l with
  | nil => rfl
  | cons x xs ih =>
    simp only [List.map_cons, List.sum_cons, List.length_cons, ih]
    omega

theorem modify_and_sum_spec (arr : Nat → Nat) (N : Nat) :
    (PerfVar10.modify_and_sum arr N).1 =
      (fun k => if k < N then (arr k + 1) % wordMod else arr k)
    ∧ (PerfVar10.modify_and_sum arr N).2 =
      (((List.range N).map (fun i => (arr i + 1) % wordMod)).sum) % wordMod := by
  unfold PerfVar10.modify_and_sum
  induction N with
  | zero =>
    constructor
    · funext k
      simp
    · simp
  | succ N ih =>
    obtain ⟨ih1, ih2⟩ := ih
    rw [List.range_succ, List.foldl_append]
    simp only [List.foldl_cons, List.foldl_nil]
    constructor
    · funext k
      show (if k = N then (((List.range N).foldl PerfVar10.modifyStep (arr, 0)).1 k + 1) % wordMod
          else ((List.range N).foldl PerfVar10.modifyStep (arr, 0)).1 k) = _
      simp only [ih1]
      split_ifs <;> first | rfl | omega
    · show ((((List.range N).foldl PerfVar10.modifyStep (arr, 0)).2 +
          (if N = N then (((List.range N).foldl PerfVar10.modifyStep (arr, 0)).1 N + 1) % wordMod
            else ((List.range N).foldl PerfVar10.modifyStep (arr, 0)).1 N)) % wordMod) = _
      simp only [ih1, ih2]
      rw [if_pos trivial, if_neg (Nat.lt_irrefl N), List.map_append, List.sum_append]
      simp only [List.map_cons, List.map_nil, List.sum_cons, List.sum_nil]
      rw [Nat.mod_add_mod]
      simp

-- Helper facts for the claim theorems.

theorem sum_map_const (c : Nat) (l : List Nat) :
    (l.map (fun _ => c)).sum = l.length * c := by
  induction l with
  | nil => simp
  | cons x xs ih =>
    simp only [List.map_cons, List.sum_cons, List.length_cons, ih]
    ring

theorem chunk_ordered (N T t1 t2 : Nat) (h12 : t1 < t2) (h2 : t2 < T) :
    chunk_end N T t1 ≤ chunk_start N T t2 := by
  unfold chunk_end
  rw [if_neg (by omega)]
  calc chunk_start N T t1 + chunk_size N T = (t1 + 1) * chunk_size N T := by
        unfold chunk_start
        ring
    _ ≤ t2 * chunk_size N T := Nat.mul_le_mul_right _ (by omega)
    _ = chunk_start N T t2 := rfl

theorem chunk_lengths (N T : Nat) (hT : 0 < T) :
    ((List.range T).map (fun t => chunk_end N T t - chunk_start N T t)).sum = N := by
  obtain ⟨S, rfl⟩ : ∃ S, T = S + 1 := ⟨T - 1, by omega⟩
  rw [List.range_succ, List.map_append, List.sum_append]
  have h1 : (List.range S).map (fun t => chunk_end N (S + 1) t - chunk_start N (S + 1) t) =
      (List.range S).map (fun _ => chunk_size N (S + 1)) := by
    apply List.map_congr_left
    intro t ht
    simp only [List.mem_range] at ht
    unfold chunk_end
    rw [if_neg (by omega)]
    omega
  rw [h1, sum_map_const]
  simp only [List.length_range, List.map_cons, List.map_nil, List.sum_cons, List.sum_nil]
  have h3 : chunk_end N (S + 1) S - chunk_start N (S + 1) S = N - S * chunk_size N (S + 1) := by
    unfold chunk_end chunk_start
    rw [if_pos (by omega)]
  rw [h3]
  have h4 : S * chunk_size N (S + 1) ≤ N := by
    have h5 := chunk_front_le N (S + 1)
    simpa using h5
  omega

-- ===== Claim theorems =====

/-- C1 counterexample: at `N = 3`, `T = 1`, stride `2^63 + 2` (coprime
with 3), the strided sum over the `load_array` fill is 5, not
`N(N+1)/2 = 6`: for `i = 2` the `unsigned long` product `i * stride`
wraps modulo 2^64 to 4, so the traversal reads index 1 twice and never
reads index 2.  A coprime stride alone does not make the strided mode
sum-correct. -/
theorem c1_counterexample :
    Nat.Coprime (2 ^ 63 + 2) 3
    ∧ MemAccess28.sum_bad_ma load_array 3 1 (2 ^ 63 + 2) = 5
    ∧ (3 * (3 + 1) / 2) % wordMod = 6
    ∧ MemAccess28.sum_bad_ma load_array 3 1 (2 ^ 63 + 2) ≠ (3 * (3 + 1) / 2) % wordMod := by
  have h := sum_bad_ma_eq load_array 3 1 (2 ^ 63 + 2) (by decide)
  refine ⟨by decide, ?_, by decide, ?_⟩
  · rw [h]
    decide
  · rw [h]
    decide

/-- C1 amended: for every array length `N ≥ 1` (a C `unsigned long`,
hence `N < 2^64`) filled with `value[i] = i + 1` by `load_array`, and
every thread count `T ≥ 1`, the final reduced sum equals `N(N+1)/2`
modulo 2^64 in the linear good mode, the false-sharing mode, and the
permuted-index mode for any valid permutation of `[0, N)`; the strided
mode also yields it provided the stride is coprime with `N` AND the
index product cannot wrap, i.e. `(N-1) * stride < 2^64` -- when the
product wraps, a coprime stride can read some element twice and skip
another (see the counterexample). -/
theorem c1_amended (N T s : Nat) (perm : Nat → Nat)
    (hN : 1 ≤ N) (hNW : N < wordMod) (hT : 1 ≤ T) :
    MemAccess28.sum_good load_array N T = (N * (N + 1) / 2) % wordMod
    ∧ MemAccess28.sum_bad_fs load_array N T = (N * (N + 1) / 2) % wordMod
    ∧ (Nat.Coprime s N → (N - 1) * s < wordMod →
        MemAccess28.sum_bad_ma load_array N T s = (N * (N + 1) / 2) % wordMod)
    ∧ (((List.range N).map perm).Perm (List.range N) →
        InitVar29.sum_bad_ma load_array N T perm = (N * (N + 1) / 2) % wordMod) := by
  refine ⟨?_, ?_, ?_, ?_⟩
  · rw [sum_good_eq load_array N T hT, load_array_sum N hNW]
  · rw [sum_bad_fs_eq load_array N T hT, load_array_sum N hNW]
  · intro hco hwrap
    rw [sum_bad_ma_coprime_eq load_array N T s hT hco hwrap, load_array_sum N hNW]
  · intro hperm
    rw [sum_perm_eq load_array N T perm hT hperm, load_array_sum N hNW]

/-- Witness for C1 (amended) at `N = 10`, `T = 3`, stride 3 (coprime to
10, product wrap-free) and the identity permutation, with every
hypothesis discharged. -/
theorem c1_amended_witness :
    MemAccess28.sum_good load_array 10 3 = (10 * (10 + 1) / 2) % wordMod
    ∧ MemAccess28.sum_bad_fs load_array 10 3 = (10 * (10 + 1) / 2) % wordMod
    ∧ MemAccess28.sum_bad_ma load_array 10 3 3 = (10 * (10 + 1) / 2) % wordMod
    ∧ InitVar29.sum_bad_ma load_array 10 3 (fun i => i) = (10 * (10 + 1) / 2) % wordMod :=
  ⟨(c1_amended 10 3 3 (fun i => i) (by decide) (by decide) (by decide)).1,
    (c1_amended 10 3 3 (fun i => i) (by decide) (by decide) (by decide)).2.1,
    (c1_amended 10 3 3 (fun i => i) (by decide) (by decide) (by decide)).2.2.1
      (by decide) (by decide),
    (c1_amended 10 3 3 (fun i => i) (by decide) (by decide) (by decide)).2.2.2 (by simp)⟩

/-- C2: for every dataset, element count and thread count, the isolated
(cache-line-padded) and packed (unpadded) accumulator layouts produce
identical results, for both the sum and the comparison workloads; in
particular summing `{1, ..., 1000}` with `T = 4` yields 500500 under both
layouts. -/
theorem c2_layout_equivalence :
    (∀ (arr : Nat → Nat) (N T : Nat),
      MemAccess28.sum_good arr N T = MemAccess28.sum_bad_fs arr N T)
    ∧ (∀ (A B : Nat → Nat) (N T : Nat),
      MatCmp31.compare_good A B N T = MatCmp31.compare_bad_fs A B N T)
    ∧ MemAccess28.sum_good load_array 1000 4 = 500500
    ∧ MemAccess28.sum_bad_fs load_array 1000 4 = 500500 := by
  refine ⟨fun arr N T => rfl, fun A B N T => rfl, ?_, ?_⟩
  · rw [sum_good_eq load_array 1000 4 (by norm_num), load_array_sum 1000 (by decide)]
    decide
  · rw [sum_bad_fs_eq load_array 1000 4 (by norm_num), load_array_sum 1000 (by decide)]
    decide

/-- C3: for every `N ≥ 1` and `T ≥ 1`, the `T` half-open ranges produced
by the partitioning rule are pairwise disjoint, their union is exactly
`[0, N)`, and their lengths sum to `N`. -/
theorem c3_partition (N T : Nat) (hN : 1 ≤ N) (hT : 1 ≤ T) :
    (∀ t1 t2 k, t1 < T → t2 < T → t1 ≠ t2 →
      ¬(chunk_start N T t1 ≤ k ∧ k < chunk_end N T t1
        ∧ chunk_start N T t2 ≤ k ∧ k < chunk_end N T t2))
    ∧ (∀ k, k < N ↔ ∃ t, t < T ∧ chunk_start N T t ≤ k ∧ k < chunk_end N T t)
    ∧ ((List.range T).map (fun t => chunk_end N T t - chunk_start N T t)).sum = N := by
  refine ⟨?_, ?_, chunk_lengths N T (by omega)⟩
  · intro t1 t2 k h1 h2 h12 hcontra
    obtain ⟨ha1, hb1, ha2, hb2⟩ := hcontra
    rcases Nat.lt_or_ge t1 t2 with hlt | hge
    · have h3 := chunk_ordered N T t1 t2 hlt h2
      omega
    · have hlt2 : t2 < t1 := by omega
      have h3 := chunk_ordered N T t2 t1 hlt2 h1
      omega
  · intro k
    constructor
    · intro hk
      by_cases hc : chunk_size N T = 0
      · refine ⟨T - 1, by omega, ?_, ?_⟩
        · unfold chunk_start
          rw [hc]
          simp
        · unfold chunk_end
          rw [if_pos rfl]
          exact hk
      · by_cases ht0 : k / chunk_size N T < T - 1
        · refine ⟨k / chunk_size N T, by omega, ?_, ?_⟩
          · unfold chunk_start
            exact Nat.div_mul_le_self k (chunk_size N T)
          · unfold chunk_end chunk_start
            rw [if_neg (by omega)]
            have h4 := Nat.div_add_mod k (chunk_size N T)
            have h5 := Nat.mod_lt k (show 0 < chunk_size N T by omega)
            have h6 : k / chunk_size N T * chunk_size N T =
                chunk_size N T * (k / chunk_size N T) := Nat.mul_comm _ _
            omega
        · refine ⟨T - 1, by omega, ?_, ?_⟩
          · unfold chunk_start
            have h4 : (T - 1) * chunk_size N T ≤ k / chunk_size N T * chunk_size N T :=
              Nat.mul_le_mul_right _ (by omega)
            have h5 := Nat.div_mul_le_self k (chunk_size N T)
            omega
          · unfold chunk_end
            rw [if_pos rfl]
            exact hk
    · rintro ⟨t, ht, h1, h2⟩
      exact Nat.lt_of_lt_of_le h2 (chunk_end_le N T t ht)

/-- Witness for C3 at `N = 7`, `T = 3`: the partition lengths sum to 7
and index 6 lies in some worker's range. -/
theorem c3_partition_witness :
    ((List.range 3).map (fun t => chunk_end 7 3 t - chunk_start 7 3 t)).sum = 7
    ∧ (6 < 7 ↔ ∃ t, t < 3 ∧ chunk_start 7 3 t ≤ 6 ∧ 6 < chunk_end 7 3 t) :=
  ⟨(c3_partition 7 3 (by decide) (by decide)).2.2,
    (c3_partition 7 3 (by decide) (by decide)).2.1 6⟩

/-- Combined sequence of array indices read across all workers in the
strided bad-ma mode of array_sum_memory_access_28.c.  Each index is
`(i * stride) % size` in `unsigned long` arithmetic: the product wraps
modulo 2^64 before the reduction modulo `size`. -/
def stridedVisits (N T s : Nat) : List Nat :=
  ((List.range T).map (fun t => (loopIdx N T t).map (fun i => i * s % wordMod % N))).flatten

/-- Combined sequence of indices processed across all workers in the
chunk-partitioned modes. -/
def chunkVisits (N T : Nat) : List Nat := ((List.range T).map (threadIdxs N T)).flatten

theorem stridedVisits_perm (N T s : Nat) (hT : 0 < T) (hco : Nat.Coprime s N)
    (hwrap : (N - 1) * s < wordMod) :
    (stridedVisits N T s).Perm (List.range N) := by
  unfold stridedVisits
  have h1 : (List.range T).map (fun t => (loopIdx N T t).map (fun i => i * s % wordMod % N)) =
      ((List.range T).map (loopIdx N T)).map (List.map (fun i => i * s % wordMod % N)) := by
    rw [List.map_map]
    rfl
  rw [h1, ← List.map_flatten]
  refine ((loopIdx_flatten_perm N T hT).map _).trans ?_
  rw [strided_idx_no_wrap N s hwrap]
  exact mul_mod_perm N s hco

/-- C4 counterexample: with `N = 2`, `T = 2`, under the OpenMP static
schedule, the bad-fs matrix-initialization mode never writes cell
`a[1][0]`: the per-element operation is not applied to every element of
the index space. -/
theorem c4_counterexample : MatInit23.bad_fs_mode 2 2 1 0 = none := by decide

/-- C4 amended: the chunked sum/compare executors do apply the
per-element operation to every element exactly once -- each index of
`[0, N)` occurs exactly once across the chunked workers' ranges -- and
the strided reads visit every index exactly once when the stride is
coprime to `N` and the `unsigned long` index product cannot wrap
(`(N-1) * stride < 2^64`; with a wrapping product even a coprime stride
reads some element twice and skips another, see the C1 counterexample);
the matrix-initialization good mode writes every cell; but the bad-fs
matrix-initialization mode writes cell `[row][col]` only when
`row = tid(col) + m*T`, so with `T = 1` it writes every cell while for
`T >= 2` some cells are never written (see the counterexample). -/
theorem c4_amended (N T s k i j : Nat) (hT : 1 <= T) (hk : k < N)
    (hi : i < N) (hj : j < N) :
    (chunkVisits N T).count k = 1
    /\ (Nat.Coprime s N -> (N - 1) * s < wordMod -> (stridedVisits N T s).count k = 1)
    /\ MatInit23.bad_fs_mode N 1 i j = some 17
    /\ MatInit23.good_mode N i j = some 17 := by
  refine ⟨?_, ?_, ?_, ?_⟩
  · unfold chunkVisits
    rw [chunk_join N T (by omega)]
    exact List.count_eq_one_of_mem (List.nodup_range N) (List.mem_range.mpr hk)
  · intro hco hwrap
    rw [(stridedVisits_perm N T s (by omega) hco hwrap).count_eq]
    exact List.count_eq_one_of_mem (List.nodup_range N) (List.mem_range.mpr hk)
  · unfold MatInit23.bad_fs_mode MatInit23.staticTid MatInit23.staticChunk
    have h1 : (N + 1 - 1) / 1 = N := by omega
    rw [h1]
    have h2 : j / N = 0 := Nat.div_eq_of_lt hj
    rw [h2]
    rw [if_pos (by omega)]
  · unfold MatInit23.good_mode
    rw [if_pos ⟨hi, hj⟩]

/-- Witness for C4 (amended) at `N = 5`, `T = 2`, stride 3 (coprime,
wrap-free), `k = 4`, cell (2, 3), with every hypothesis discharged. -/
theorem c4_amended_witness :
    (chunkVisits 5 2).count 4 = 1
    /\ (stridedVisits 5 2 3).count 4 = 1
    /\ MatInit23.bad_fs_mode 5 1 2 3 = some 17
    /\ MatInit23.good_mode 5 2 3 = some 17 :=
  ⟨(c4_amended 5 2 3 4 2 3 (by decide) (by decide) (by decide) (by decide)).1,
    (c4_amended 5 2 3 4 2 3 (by decide) (by decide) (by decide) (by decide)).2.1
      (by decide) (by decide),
    (c4_amended 5 2 3 4 2 3 (by decide) (by decide) (by decide) (by decide)).2.2.1,
    (c4_amended 5 2 3 4 2 3 (by decide) (by decide) (by decide) (by decide)).2.2.2⟩

/-- C5: for every element count `N >= 1` (with `N < 2^64`) and thread
count `T >= 1`, after `initialize_matrices` the mismatch count returned
by the comparison equals `(N - 1) / 1000 + 1` in every mode: good,
bad-fs, and bad-ma with any valid permutation of `[0, N)`. -/
theorem c5_mismatch_count (N T : Nat) (perm : Nat -> Nat)
    (hN : 1 <= N) (hNW : N < wordMod) (hT : 1 <= T)
    (hperm : ((List.range N).map perm).Perm (List.range N)) :
    MatCmp31.compare_good MatCmp31.initA MatCmp31.initB N T = (N - 1) / 1000 + 1
    /\ MatCmp31.compare_bad_fs MatCmp31.initA MatCmp31.initB N T = (N - 1) / 1000 + 1
    /\ MatCmp31.compare_bad_ma MatCmp31.initA MatCmp31.initB N T perm = (N - 1) / 1000 + 1 := by
  have hcount := mismatch_count N hN
  have hsmall : (N - 1) / 1000 + 1 < wordMod := by
    have h2 := Nat.div_le_self (N - 1) 1000
    omega
  have hgood : MatCmp31.compare_good MatCmp31.initA MatCmp31.initB N T = (N - 1) / 1000 + 1 := by
    rw [chunked_count_eq MatCmp31.initA MatCmp31.initB N T (by omega), hcount,
      Nat.mod_eq_of_lt hsmall]
  refine ⟨hgood, hgood, ?_⟩
  rw [perm_count_eq MatCmp31.initA MatCmp31.initB N T perm (by omega) hperm, hcount,
    Nat.mod_eq_of_lt hsmall]

/-- Witness for C5 at `N = 1500`, `T = 2` and the identity permutation:
the mismatch count is 2 in all three modes. -/
theorem c5_mismatch_count_witness :
    MatCmp31.compare_good MatCmp31.initA MatCmp31.initB 1500 2 = (1500 - 1) / 1000 + 1
    /\ MatCmp31.compare_bad_fs MatCmp31.initA MatCmp31.initB 1500 2 = (1500 - 1) / 1000 + 1
    /\ MatCmp31.compare_bad_ma MatCmp31.initA MatCmp31.initB 1500 2 (fun i => i) =
      (1500 - 1) / 1000 + 1 :=
  c5_mismatch_count 1500 2 (fun i => i) (by decide) (by decide) (by decide) (by simp)

/-- C6: applied to the identity fill, the shuffle produces a sequence
containing every integer of `[0, N)` exactly once for every `N ≥ 1`, and
for `N = 1` the loop body never runs; but at `N = 0` the code is NOT a
safe no-op: the unsigned loop counter `i = size - 1` wraps to
`2^64 - 1`, the guard `i > 0` holds, the position `i` is far out of
bounds, and the first iteration's modulus `i + 1` wraps to 0, making
`rand() % (i + 1)` a division by zero. -/
theorem c6_shuffle_permutation (r f : Nat → Nat) (N k : Nat) (hN : 1 ≤ N) (hk : k < N) :
    occursCount (shuffle_array r N (fun m => m)) N k = 1
    ∧ shuffle_array r 1 f = f
    ∧ shuffleEntersLoop 0 = true
    ∧ shuffleInitialIndex 0 = wordMod - 1
    ∧ shuffleFirstModulus 0 = 0 := by
  refine ⟨shuffle_array_occursCount r N k hN hk, rfl, ?_, ?_, ?_⟩ <;> decide

/-- Witness for C6 at `N = 3`, `k = 2`, with a constant random source. -/
theorem c6_shuffle_permutation_witness :
    occursCount (shuffle_array (fun _ => 0) 3 (fun m => m)) 3 2 = 1
    ∧ shuffle_array (fun _ => 0) 1 (fun m => m) = (fun m => m)
    ∧ shuffleEntersLoop 0 = true
    ∧ shuffleInitialIndex 0 = wordMod - 1
    ∧ shuffleFirstModulus 0 = 0 :=
  c6_shuffle_permutation (fun _ => 0) (fun m => m) 3 2 (by decide) (by decide)

/-- C7 counterexample: array_sum_false_sharing_sim_14.c invoked with a
valid mode, `size = 0` and `threads = 0` passes every pre-allocation
check and proceeds to the allocation (and matrix_init_access_modes_23.c
behaves the same): size and thread count are not validated, refuting the
claim that every program rejects such inputs before allocating. -/
theorem c7_counterexample :
    Sim14.rejectsBeforeAlloc "good" 0 0 = false
    ∧ MatInit23.rejectsBeforeAlloc "good" 0 0 = false := by
  refine ⟨?_, ?_⟩ <;> decide

/-- C7 amended: the three full benchmark programs
(array_sum_memory_access_28.c, matrix_compare_memory_modes_31.c,
matrix_init_access_variation_29.c) reject an invalid mode, `size = 0`
and `threads ≤ 0` before any allocation with a non-zero exit; but
array_sum_false_sharing_sim_14.c and matrix_init_access_modes_23.c check
only the mode string before allocating, and
array_sum_performance_variation_10.c checks `size = 0` before allocating
while checking the mode only after the buffer allocation. -/
theorem c7_amended (m : String) (s : Nat) (t : Int)
    (hbad : validMode m = false ∨ s = 0 ∨ t ≤ 0) :
    MemAccess28.rejectsBeforeAlloc m s t = true
    ∧ MatCmp31.rejectsBeforeAlloc m s t = true
    ∧ InitVar29.rejectsBeforeAlloc m s t = true
    ∧ Sim14.rejectsBeforeAlloc m s t = !(validMode m)
    ∧ MatInit23.rejectsBeforeAlloc m s t = !(validMode m)
    ∧ PerfVar10.rejectsBeforeAlloc m s t = (s == 0)
    ∧ PerfVar10.rejectsAfterAlloc m = !(m == "good" || m == "bad") := by
  have h28 : MemAccess28.rejectsBeforeAlloc m s t = true := by
    unfold MemAccess28.rejectsBeforeAlloc
    rcases hbad with h | h | h
    · rw [h]
      simp
    · simp [h]
    · simp [decide_eq_true h]
  exact ⟨h28, h28, h28, rfl, rfl, rfl, rfl⟩

/-- Witness for C7 (amended) at mode "nope", `size = 5`, `threads = 2`. -/
theorem c7_amended_witness :
    MemAccess28.rejectsBeforeAlloc "nope" 5 2 = true
    ∧ MatCmp31.rejectsBeforeAlloc "nope" 5 2 = true
    ∧ InitVar29.rejectsBeforeAlloc "nope" 5 2 = true
    ∧ Sim14.rejectsBeforeAlloc "nope" 5 2 = !(validMode "nope")
    ∧ MatInit23.rejectsBeforeAlloc "nope" 5 2 = !(validMode "nope")
    ∧ PerfVar10.rejectsBeforeAlloc "nope" 5 2 = ((5 : Nat) == 0)
    ∧ PerfVar10.rejectsAfterAlloc "nope" = !("nope" == "good" || "nope" == "bad") :=
  c7_amended "nope" 5 2 (Or.inl (by decide))

/-- C8 counterexample: in matrix_init_access_modes_23.c bad-fs mode with
`N = 18`, cell `a[17][17]` holds 17 after a run with `T = 1` but 18
after a run with `T = 2` (the stored value `17 + tid` depends on the
schedule): the result printed by the program is not identical across
thread counts, refuting thread-count invariance for this mode. -/
theorem c8_counterexample :
    MatInit23.bad_fs_mode 18 1 17 17 = some 17
    ∧ MatInit23.bad_fs_mode 18 2 17 17 = some 18
    ∧ MatInit23.bad_fs_mode 18 1 17 17 ≠ MatInit23.bad_fs_mode 18 2 17 17 := by
  refine ⟨by decide, by decide, by decide⟩

/-- C8 amended: for fixed input and mode the final scalar result is
identical for all thread counts `T ≥ 1` (in particular for
`T ∈ {1, 2, 4, 8}`) in the array-sum and comparison workloads, in every
mode of those programs, and the matrix-init good and bad-ma modes store
17 in every cell for every `T`; but the bad-fs matrix-init mode's final
cell contents do depend on `T` (see the counterexample). -/
theorem c8_amended (arr A B : Nat → Nat) (N T1 T2 s : Nat) (perm : Nat → Nat)
    (h1 : 1 ≤ T1) (h2 : 1 ≤ T2) :
    MemAccess28.sum_good arr N T1 = MemAccess28.sum_good arr N T2
    ∧ MemAccess28.sum_bad_fs arr N T1 = MemAccess28.sum_bad_fs arr N T2
    ∧ MemAccess28.sum_bad_ma arr N T1 s = MemAccess28.sum_bad_ma arr N T2 s
    ∧ InitVar29.sum_bad_ma arr N T1 perm = InitVar29.sum_bad_ma arr N T2 perm
    ∧ MatCmp31.compare_good A B N T1 = MatCmp31.compare_good A B N T2
    ∧ MatCmp31.compare_bad_fs A B N T1 = MatCmp31.compare_bad_fs A B N T2
    ∧ MatCmp31.compare_bad_ma A B N T1 perm = MatCmp31.compare_bad_ma A B N T2 perm
    ∧ (∀ i j, MatInit23.good_mode N i j = MatInit23.bad_ma_mode N i j) := by
  refine ⟨?_, ?_, ?_, ?_, ?_, ?_, ?_, fun i j => rfl⟩
  · rw [sum_good_eq arr N T1 (by omega), sum_good_eq arr N T2 (by omega)]
  · rw [sum_bad_fs_eq arr N T1 (by omega), sum_bad_fs_eq arr N T2 (by omega)]
  · rw [sum_bad_ma_eq arr N T1 s (by omega), sum_bad_ma_eq arr N T2 s (by omega)]
  · rw [sum_perm_raw arr N T1 perm (by omega), sum_perm_raw arr N T2 perm (by omega)]
  · rw [chunked_count_eq A B N T1 (by omega), chunked_count_eq A B N T2 (by omega)]
  · have hfs : ∀ T : Nat, MatCmp31.compare_bad_fs A B N T = MatCmp31.compare_good A B N T :=
      fun _ => rfl
    rw [hfs T1, hfs T2, chunked_count_eq A B N T1 (by omega),
      chunked_count_eq A B N T2 (by omega)]
  · rw [perm_count_raw A B N T1 perm (by omega), perm_count_raw A B N T2 perm (by omega)]

/-- Witness for C8 (amended) at `N = 6`, `T1 = 1`, `T2 = 2`, stride 5,
identity permutation, with the standard fills. -/
theorem c8_amended_witness :
    MemAccess28.sum_good load_array 6 1 = MemAccess28.sum_good load_array 6 2
    ∧ MemAccess28.sum_bad_fs load_array 6 1 = MemAccess28.sum_bad_fs load_array 6 2
    ∧ MemAccess28.sum_bad_ma load_array 6 1 5 = MemAccess28.sum_bad_ma load_array 6 2 5
    ∧ InitVar29.sum_bad_ma load_array 6 1 (fun i => i) =
      InitVar29.sum_bad_ma load_array 6 2 (fun i => i)
    ∧ MatCmp31.compare_good MatCmp31.initA MatCmp31.initB 6 1 =
      MatCmp31.compare_good MatCmp31.initA MatCmp31.initB 6 2
    ∧ MatCmp31.compare_bad_fs MatCmp31.initA MatCmp31.initB 6 1 =
      MatCmp31.compare_bad_fs MatCmp31.initA MatCmp31.initB 6 2
    ∧ MatCmp31.compare_bad_ma MatCmp31.initA MatCmp31.initB 6 1 (fun i => i) =
      MatCmp31.compare_bad_ma MatCmp31.initA MatCmp31.initB 6 2 (fun i => i)
    ∧ (∀ i j, MatInit23.good_mode 6 i j = MatInit23.bad_ma_mode 6 i j) :=
  c8_amended load_array MatCmp31.initA MatCmp31.initB 6 1 2 5 (fun i => i)
    (by decide) (by decide)

/-- C9: in array_sum_false_sharing_sim_14.c the bad-ma mode does not
visit the elements in any non-sequential order: its loop reads
`array[i]` for `i = 0, 1, ..., N-1`, exactly the linear order of good
mode; the `stride = 64` local it declares is never applied to the index.
Shown here at every size and concretely at `N = 8`. -/
theorem c9_sim14_bad_ma_is_linear :
    (∀ N, Sim14.badMaVisits N = Sim14.goodVisits N)
    ∧ Sim14.badMaVisits 8 = [0, 1, 2, 3, 4, 5, 6, 7]
    ∧ Sim14.declaredStride = 64 :=
  ⟨fun _ => rfl, by decide, rfl⟩

/-- C10: `modify_and_sum` replaces every element of `[0, N)` by exactly
its old value plus 1 (mod 2^64), touches no element outside `[0, N)`,
and reports the sum of the updated values, which equals the original
array sum plus `N` (mod 2^64); hence in good mode the Modified Sum
equals the Linear Sum plus `N` (mod 2^64). -/
theorem c10_modify_and_sum (arr : Nat → Nat) (N : Nat) :
    ((PerfVar10.modify_and_sum arr N).1 =
      fun k => if k < N then (arr k + 1) % wordMod else arr k)
    ∧ (PerfVar10.modify_and_sum arr N).2 = (((List.range N).map arr).sum + N) % wordMod
    ∧ (PerfVar10.modify_and_sum arr N).2 = (PerfVar10.sum_linear arr N + N) % wordMod := by
  obtain ⟨h1, h2⟩ := modify_and_sum_spec arr N
  have hsum : (PerfVar10.modify_and_sum arr N).2 =
      (((List.range N).map arr).sum + N) % wordMod := by
    rw [h2, sum_map_mod (List.range N) (fun i => arr i + 1),
      sum_map_add_one arr (List.range N), List.length_range]
  refine ⟨h1, hsum, ?_⟩
  rw [hsum]
  unfold PerfVar10.sum_linear
  rw [mSum_eq, Nat.mod_add_mod]

end HPCFS
